import Mathlib

/-!
Verification of the f0 sonification core (`libsoni/core/f0.py`).

The synthesis pipeline of `sonify_f0` / `sonify_f0_with_presets` is embedded
shallowly: time positions, frequencies, gains and durations are exact
rationals (the Python floats), sample buffers are length-indexed functions
`ℕ → ℚ` (for the dense contour stage) and `List ℝ` (for the oscillator
output).  All time values handled by the code are non-negative (the data
model requires non-negative breakpoint times and natural sample counts), so
Python's `int(x)` truncation coincides with the floor function used here.

`generate_tone_instantaneous_phase`, `normalize_signal` and `get_preset`
live outside the given source file; they are modelled from the spec where
noted.
-/

/-- Python `int(x)` for the non-negative reals that occur in this code:
truncation toward zero, i.e. the floor. -/
def pyInt (q : ℚ) : ℤ := ⌊q⌋

/-- Conversion of a time position (seconds) to a sample index:
`int(time * fs)` as in the source. -/
def toSampN (fs t : ℚ) : ℕ := (pyInt (t * fs)).toNat

/-- Typed failures of the embedded code: Python `AssertionError` on the
gains-length assert, `IndexError` on `array[-1]` of an empty array, a
missing preset key, and a numpy shape mismatch on `+=`. -/
inductive F0Err where
  | lengthMismatch
  | indexOutOfRange
  | unknownPreset
  | shapeMismatch
deriving DecidableEq

/-- A dense per-sample contour: values of an array of length `N`. -/
def setRange (N : ℕ) (f : ℕ → ℚ) (lo hi : ℕ) (v : ℚ) : ℕ → ℚ :=
  fun n => if lo ≤ n ∧ n < hi ∧ n < N then v else f n

/-- One iteration of the stretch loop of `sonify_f0` (lines 88-96):
breakpoint `i` writes its frequency and gain onto the half-open sample
range up to the next breakpoint; the final breakpoint instead zeroes the
tail of the buffer unless a shorter explicit duration truncated the
trajectory. -/
def stretchStep (fs : ℚ) (ts f0s gs : List ℚ) (shorter : Bool) (N : ℕ)
    (i : ℕ) (st : (ℕ → ℚ) × (ℕ → ℚ)) : (ℕ → ℚ) × (ℕ → ℚ) :=
  if i = ts.length - 1 then
    if shorter then st
    else
      (setRange N st.1 (toSampN fs (ts.getD i 0)) N 0,
       setRange N st.2 (toSampN fs (ts.getD i 0)) N 0)
  else
    (setRange N st.1 (toSampN fs (ts.getD i 0)) (toSampN fs (ts.getD (i + 1) 0)) (f0s.getD i 0),
     setRange N st.2 (toSampN fs (ts.getD i 0)) (toSampN fs (ts.getD (i + 1) 0)) (gs.getD i 0))

/-- Apply steps `0, 1, …, k-1` in order (the `for i, … in enumerate(zip(…))`
loop). -/
def iterSteps {α : Type} (step : ℕ → α → α) : ℕ → α → α
  | 0, st => st
  | k + 1, st => step k (iterSteps step k st)

/-- The stretch loop: starting from two zero buffers of length `N`, run one
`stretchStep` per element of `zip(time_positions, f0s, gains)` (Python `zip`
stops at the shortest of the three arrays). -/
def stretchContour (fs : ℚ) (ts f0s gs : List ℚ) (shorter : Bool) (N : ℕ) :
    (ℕ → ℚ) × (ℕ → ℚ) :=
  iterSteps (stretchStep fs ts f0s gs shorter N)
    (min (min ts.length f0s.length) gs.length) (fun _ => 0, fun _ => 0)

/-- Lines 52-55 of the source: an explicit gains array must have the same
length as `time_f0` (`assert` → `AssertionError`), a missing one defaults to
all-ones. -/
def resolveGains (time_f0 : List (ℚ × ℚ)) : Option (List ℚ) → Except F0Err (List ℚ)
  | some gs => if gs.length = time_f0.length then .ok gs else .error .lengthMismatch
  | none => .ok (List.replicate time_f0.length 1)

/-- Lines 60-79 of the source: reconcile an explicit `sonification_duration`
with the natural sample count.  When the target is shorter, breakpoints at or
after the target time are dropped and the target time is appended (and the
frequency list is sliced to the new length); when it is longer, a breakpoint
at the target time with frequency `0.0` is appended.  In both cases
`num_samples` is recomputed from the (new) last time position. -/
def reconcileDuration (fs : ℚ) (ts f0s : List ℚ) (num_samples : ℕ) :
    Option ℕ → List ℚ × List ℚ × Bool × ℕ
  | none => (ts, f0s, false, num_samples)
  | some d =>
    let duration_in_sec : ℚ := (d : ℚ) / fs
    if d = num_samples then (ts, f0s, false, num_samples)
    else if d < num_samples then
      let tp := ts.filter (fun t => t < duration_in_sec) ++ [duration_in_sec]
      (tp, f0s.take tp.length, true, toSampN fs duration_in_sec)
    else
      (ts ++ [duration_in_sec], f0s ++ [(0 : ℚ)], false, toSampN fs duration_in_sec)

/-- The dense-contour stage of `sonify_f0` (lines 52-96): resolve gains,
read the natural sample count `int(time_positions[-1] * fs)`, reconcile an
explicit `sonification_duration` (crop or append), and stretch.  Returns the
buffer length together with the dense frequency and gain contours. -/
def sonify_f0_dense (time_f0 : List (ℚ × ℚ)) (gains : Option (List ℚ))
    (sonification_duration : Option ℕ) (fs : ℚ) :
    Except F0Err (ℕ × ((ℕ → ℚ) × (ℕ → ℚ))) :=
  match resolveGains time_f0 gains with
  | .error e => .error e
  | .ok gs =>
    match time_f0 with
    | [] => .error .indexOutOfRange
    | bp0 :: rest =>
      let time_positions := (bp0 :: rest).map Prod.fst
      let f0s := (bp0 :: rest).map Prod.snd
      let num_samples := toSampN fs (time_positions.getLastD 0)
      match reconcileDuration fs time_positions f0s num_samples sonification_duration with
      | (tp, ff, shorter, n) => .ok (n, stretchContour fs tp ff gs shorter n)

/-- Accumulated phase, in cycles, of a partial with ratio `p` after
processing samples `0, …, n` of the dense frequency contour: the running sum
of the per-sample steps `freq[k] * p / fs`. -/
def cycleSum (freq : ℕ → ℚ) (p fs : ℚ) : ℕ → ℚ
  | 0 => freq 0 * p / fs
  | n + 1 => cycleSum freq p fs n + freq (n + 1) * p / fs

/-- One partial's contribution at sample `n`: the phase accumulator is
initialised to the phase offset and incremented by `2π·freq[n]·p/fs` at each
sample before the sine is taken, then scaled by the partial amplitude. -/
noncomputable def oscSample (freq : ℕ → ℚ) (p a off fs : ℚ) (n : ℕ) : ℝ :=
  Real.sin ((off : ℝ) + 2 * Real.pi * ((cycleSum freq p fs n : ℚ) : ℝ)) * (a : ℝ)

/-- Linear fade-in over the first `L` samples and fade-out over the last `L`
samples of a buffer of length `N` (identity when `L = 0`). -/
noncomputable def fadeFactor (N L n : ℕ) : ℝ :=
  (if n < L then (n : ℝ) / (L : ℝ) else 1) *
    (if N ≤ n + L then ((N - 1 - n : ℕ) : ℝ) / (L : ℝ) else 1)

/-- Modelled from the spec: `generate_tone_instantaneous_phase` (in
`libsoni/core/methods.py`, not part of the given source).  Per §4.2 of the
spec: for each partial, a running phase accumulator starts at the partial's
phase offset and is incremented by `2π * freq[n] * p / fs` at every sample;
`sin(phase) * amplitude` is that partial's contribution at sample `n`; the
contributions are summed, multiplied by the per-sample gain envelope, and
edge fades of `fading_sec * fs` samples (clamped to half the buffer) are
applied.  Missing phase offsets default to zeros. -/
noncomputable def generate_tone_instantaneous_phase (N : ℕ)
    (frequency_vector gain_vector : ℕ → ℚ)
    (partials partials_amplitudes : List ℚ) (partials_phase_offsets : Option (List ℚ))
    (fs fading_sec : ℚ) : List ℝ :=
  let offsets := partials_phase_offsets.getD (List.replicate partials.length 0)
  let L0 := (pyInt (fading_sec * fs)).toNat
  let L := if N < 2 * L0 then N / 2 else L0
  (List.range N).map (fun n =>
    ((partials.zip (partials_amplitudes.zip offsets)).map
        (fun t => oscSample frequency_vector t.1 t.2.1 t.2.2 fs n)).sum
      * ((gain_vector n : ℚ) : ℝ) * fadeFactor N L n)

/-- The peak absolute value of a signal (`max(|x|)`, `0` for an empty
signal). -/
noncomputable def signalPeak (xs : List ℝ) : ℝ := (xs.map (fun x => |x|)).foldr max 0

/-- Modelled from the spec: `normalize_signal` (in `libsoni/util/utils.py`,
not part of the given source).  Per §4.3 of the spec: compute the peak
absolute value; an all-zero (in particular empty) signal is returned
unchanged, otherwise every sample is divided by the peak. -/
noncomputable def normalize_signal (xs : List ℝ) : List ℝ :=
  haveI := Classical.dec (signalPeak xs = 0)
  if signalPeak xs = 0 then xs else xs.map (fun x => x / signalPeak xs)

/-- `sonify_f0` (lines 8-108 of the source): dense contour stage, oscillator
bank, optional normalization. -/
noncomputable def sonify_f0 (time_f0 : List (ℚ × ℚ)) (gains : Option (List ℚ))
    (partials partials_amplitudes : List ℚ) (partials_phase_offsets : Option (List ℚ))
    (sonification_duration : Option ℕ) (fade_duration : ℚ) (normalize : Bool) (fs : ℚ) :
    Except F0Err (List ℝ) :=
  match sonify_f0_dense time_f0 gains sonification_duration fs with
  | .error e => .error e
  | .ok (num_samples, fr, gn) =>
    let y := generate_tone_instantaneous_phase num_samples fr gn
      partials partials_amplitudes partials_phase_offsets fs fade_duration
    .ok (if normalize then normalize_signal y else y)

/-- The gain entry of a voice in the mixer's `preset_dict`: absent, a Python
float (broadcast), or a numpy array (used as is). -/
inductive GainSpec where
  | scalar (g : ℚ)
  | arr (gs : List ℚ)
deriving DecidableEq

/-- One entry of the mixer's `preset_dict`: a trajectory, a preset name and
an optional gain specification. -/
structure Voice where
  time_f0 : List (ℚ × ℚ)
  preset : String
  gain : Option GainSpec
deriving DecidableEq

/-- Lines 148-155 of the source: the per-breakpoint gain array handed to
`sonify_f0` for one voice — all ones by default, `ones * g` for a float
gain, the array itself for an array gain. -/
def voiceGains (v : Voice) : List ℚ :=
  match v.gain with
  | none => List.replicate v.time_f0.length 1
  | some (.scalar g) => List.replicate v.time_f0.length g
  | some (.arr gs) => gs

/-- Lines 138-143 of the source: fold over the voices taking the maximum of
the last breakpoint times, starting from `0`; reading `time_f0[-1, 0]` of an
empty trajectory is an `IndexError`. -/
def maxLastTime : List Voice → ℚ → Except F0Err ℚ
  | [], m => .ok m
  | v :: rest, m =>
    match v.time_f0.getLast? with
    | none => .error .indexOutOfRange
    | some bp => maxLastTime rest (if m < bp.1 then bp.1 else m)

/-- Lines 147-164 of the source: synthesize each voice (un-normalized, with
the common duration) and accumulate it into the shared buffer with `+=`,
which requires matching lengths.  `registry` stands for the external
`get_preset` lookup (modelled from the spec: returns the preset's partials
and amplitudes, absent for an unknown name). -/
noncomputable def mixLoop (registry : String → Option (List ℚ × List ℚ))
    (fs fade_duration : ℚ) (sonification_duration : ℕ) :
    List Voice → List ℝ → Except F0Err (List ℝ)
  | [], buf => .ok buf
  | v :: rest, buf =>
    match registry v.preset with
    | none => .error .unknownPreset
    | some pa =>
      match sonify_f0 v.time_f0 (some (voiceGains v)) pa.1 pa.2 none
          (some sonification_duration) fade_duration false fs with
      | .error e => .error e
      | .ok w =>
        if buf.length = w.length then
          mixLoop registry fs fade_duration sonification_duration rest
            (List.zipWith (fun a b => a + b) buf w)
        else .error .shapeMismatch

/-- `sonify_f0_with_presets` (lines 111-168 of the source): determine the
common duration (`int(np.ceil(fs * max_duration))` over the voices' last
breakpoint times when none is given), sum all voices into a zero buffer of
that length, and optionally normalize. -/
noncomputable def sonify_f0_with_presets (registry : String → Option (List ℚ × List ℚ))
    (preset_dict : List Voice) (sonification_duration : Option ℕ)
    (fade_duration : ℚ) (normalize : Bool) (fs : ℚ) : Except F0Err (List ℝ) :=
  let dur : Except F0Err ℕ :=
    match sonification_duration with
    | some d => .ok d
    | none =>
      match maxLastTime preset_dict 0 with
      | .error e => .error e
      | .ok m => .ok (⌈fs * m⌉.toNat)
  match dur with
  | .error e => .error e
  | .ok d =>
    match mixLoop registry fs fade_duration d preset_dict
        (List.replicate d (0 : ℝ)) with
    | .error e => .error e
    | .ok y => .ok (if normalize then normalize_signal y else y)

/-! ### Heap model of `sonify_f0`

To state the frame effect of `sonify_f0` (claim: caller-supplied arrays are
never mutated), the numpy arrays are given explicit addresses in a heap and
each array-writing primitive of the source is mapped to a heap operation:
`np.append`, boolean-mask filtering and `np.ones`/`np.zeros` allocate fresh
arrays, slice assignment writes in place to its target address, and plain
rebinding of a Python name touches no array.  `time_positions = time_f0[:, 0]`
and `f0s = f0s[:k]` are read-only views of the caller's array and are
modelled by reading the input addresses. -/

/-- A heap of numpy arrays; the address of an array is its index. -/
abbrev Heap : Type := List (List ℚ)

/-- Read the array at address `a` (empty for a dangling address). -/
def hRead (h : Heap) (a : ℕ) : List ℚ := h.getD a []

/-- Allocate a fresh array, returning the new heap and the new address. -/
def hAlloc (h : Heap) (xs : List ℚ) : Heap × ℕ := (h ++ [xs], h.length)

/-- `xs[lo:hi] = v` on a plain list (numpy clamps the slice to the array). -/
def listSetRange (xs : List ℚ) (lo hi : ℕ) (v : ℚ) : List ℚ :=
  xs.enum.map (fun p => if lo ≤ p.1 ∧ p.1 < hi then v else p.2)

/-- In-place slice assignment `h[a][lo:hi] = v`. -/
def hWriteRange (h : Heap) (a lo hi : ℕ) (v : ℚ) : Heap :=
  h.set a (listSetRange (hRead h a) lo hi v)

/-- Heap version of `stretchStep`: the two slice assignments of the loop
body write in place to the stretched-buffer addresses `aFS` and `aGS`. -/
def stretchStepHeap (fs : ℚ) (ts f0s gs : List ℚ) (shorter : Bool) (N aFS aGS : ℕ)
    (i : ℕ) (h : Heap) : Heap :=
  if i = ts.length - 1 then
    if shorter then h
    else
      hWriteRange (hWriteRange h aFS (toSampN fs (ts.getD i 0)) N 0)
        aGS (toSampN fs (ts.getD i 0)) N 0
  else
    hWriteRange
      (hWriteRange h aFS (toSampN fs (ts.getD i 0)) (toSampN fs (ts.getD (i + 1) 0))
        (f0s.getD i 0))
      aGS (toSampN fs (ts.getD i 0)) (toSampN fs (ts.getD (i + 1) 0)) (gs.getD i 0)

/-- Heap model of `sonify_f0` (lines 52-108).  The caller supplies the two
columns of `time_f0` and the other input arrays as heap addresses.  The
oscillator and the normalizer are external to the given source; per §5 of
the spec they read their inputs and allocate a fresh output buffer, modelled
here by a final allocation (the waveform's numeric content is carried by the
pure model above, not by this ℚ-valued heap). -/
def sonify_f0_heap (h0 : Heap) (aTime aF0 : ℕ) (aGains : Option ℕ)
    (_aPartials _aAmps : ℕ) (_aOffsets : Option ℕ) (sonification_duration : Option ℕ)
    (fs : ℚ) : Except F0Err (Heap × ℕ) :=
  let time_col := hRead h0 aTime
  let f0_col := hRead h0 aF0
  let withGains : Except F0Err (Heap × List ℚ) :=
    match aGains with
    | some a =>
      if (hRead h0 a).length = time_col.length then .ok (h0, hRead h0 a)
      else .error .lengthMismatch
    | none =>
      let al := hAlloc h0 (List.replicate time_col.length 1)
      .ok (al.1, hRead al.1 al.2)
  match withGains with
  | .error e => .error e
  | .ok (h1, gainsVal) =>
    match time_col.getLast? with
    | none => .error .indexOutOfRange
    | some tLast =>
      let num_samples := toSampN fs tLast
      let next : Heap × List ℚ × List ℚ × Bool × ℕ :=
        match sonification_duration with
        | none => (h1, time_col, f0_col, false, num_samples)
        | some d =>
          let dsec : ℚ := (d : ℚ) / fs
          if d = num_samples then (h1, time_col, f0_col, false, num_samples)
          else if d < num_samples then
            let al := hAlloc h1 (time_col.filter (fun t => t < dsec) ++ [dsec])
            (al.1, hRead al.1 al.2, f0_col.take (hRead al.1 al.2).length, true,
             toSampN fs dsec)
          else
            let alT := hAlloc h1 (time_col ++ [dsec])
            let alF := hAlloc alT.1 (f0_col ++ [(0 : ℚ)])
            (alF.1, hRead alF.1 alT.2, hRead alF.1 alF.2, false, toSampN fs dsec)
      match next with
      | (h2, tsVal, f0Val, shorter, n) =>
        let alFS := hAlloc h2 (List.replicate n (0 : ℚ))
        let alGS := hAlloc alFS.1 (List.replicate n (0 : ℚ))
        let h4 := alGS.1
        let h5 := iterSteps (stretchStepHeap fs tsVal f0Val gainsVal shorter n alFS.2 alGS.2)
          (min (min tsVal.length f0Val.length) gainsVal.length) h4
        let alOut := hAlloc h5 (List.replicate n (0 : ℚ))
        .ok (alOut.1, alOut.2)

/-! ### Basic lemmas -/

theorem pyInt_le_ceil (q : ℚ) : pyInt q ≤ ⌈q⌉ :=
  le_trans (Int.floor_le_ceil q) (le_refl _)

theorem toSampN_mono {fs a b : ℚ} (hfs : 0 ≤ fs) (hab : a ≤ b) :
    toSampN fs a ≤ toSampN fs b := by
  unfold toSampN pyInt
  exact Int.toNat_le_toNat (Int.floor_le_floor (mul_le_mul_of_nonneg_right hab hfs))

theorem setRange_of_mem {N lo hi n : ℕ} {f : ℕ → ℚ} {v : ℚ}
    (h1 : lo ≤ n) (h2 : n < hi) (h3 : n < N) : setRange N f lo hi v n = v := by
  simp [setRange, h1, h2, h3]

theorem setRange_of_lt {N lo hi n : ℕ} {f : ℕ → ℚ} {v : ℚ}
    (h : n < lo) : setRange N f lo hi v n = f n := by
  have : ¬ (lo ≤ n ∧ n < hi ∧ n < N) := by omega
  simp [setRange, this]

theorem stretchStep_of_lt (fs : ℚ) (ts f0s gs : List ℚ) (shorter : Bool) (N i n : ℕ)
    (st : (ℕ → ℚ) × (ℕ → ℚ))
    (h : n < toSampN fs (ts.getD i 0)) :
    (stretchStep fs ts f0s gs shorter N i st).1 n = st.1 n ∧
      (stretchStep fs ts f0s gs shorter N i st).2 n = st.2 n := by
  unfold stretchStep
  split
  · split
    · exact ⟨rfl, rfl⟩
    · exact ⟨setRange_of_lt h, setRange_of_lt h⟩
  · exact ⟨setRange_of_lt h, setRange_of_lt h⟩

theorem stretchStep_of_mem (fs : ℚ) (ts f0s gs : List ℚ) (shorter : Bool) (N i n : ℕ)
    (st : (ℕ → ℚ) × (ℕ → ℚ))
    (hi : ¬ i = ts.length - 1)
    (hlo : toSampN fs (ts.getD i 0) ≤ n) (hhi : n < toSampN fs (ts.getD (i + 1) 0))
    (hN : n < N) :
    (stretchStep fs ts f0s gs shorter N i st).1 n = f0s.getD i 0 ∧
      (stretchStep fs ts f0s gs shorter N i st).2 n = gs.getD i 0 := by
  unfold stretchStep
  rw [if_neg hi]
  exact ⟨setRange_of_mem hlo hhi hN, setRange_of_mem hlo hhi hN⟩

theorem iterSteps_untouched (fs : ℚ) (ts f0s gs : List ℚ) (shorter : Bool) (N n : ℕ)
    (st : (ℕ → ℚ) × (ℕ → ℚ)) (J K : ℕ) (hJK : J ≤ K)
    (hout : ∀ j, J ≤ j → j < K → n < toSampN fs (ts.getD j 0)) :
    (iterSteps (stretchStep fs ts f0s gs shorter N) K st).1 n =
        (iterSteps (stretchStep fs ts f0s gs shorter N) J st).1 n ∧
      (iterSteps (stretchStep fs ts f0s gs shorter N) K st).2 n =
        (iterSteps (stretchStep fs ts f0s gs shorter N) J st).2 n := by
  induction K with
  | zero =>
    have : J = 0 := Nat.le_zero.mp hJK
    simp [this]
  | succ k ih =>
    rcases Nat.lt_or_ge J (k + 1) with hlt | hge
    · have hk : J ≤ k := Nat.lt_succ_iff.mp hlt
      have step := stretchStep_of_lt fs ts f0s gs shorter N k n
        (iterSteps (stretchStep fs ts f0s gs shorter N) k st)
        (hout k hk (Nat.lt_succ_self k))
      have tail := ih hk (fun j hj1 hj2 => hout j hj1 (Nat.lt_succ_of_lt hj2))
      exact ⟨step.1.trans tail.1, step.2.trans tail.2⟩
    · have : J = k + 1 := Nat.le_antisymm hJK hge
      simp [this]

/-- Zero-order-hold value of the stretch loop: a sample index lying in the
half-open sample range of the pair of consecutive breakpoints `i`, `i+1`
receives breakpoint `i`'s frequency and gain, provided all later breakpoints
start at later sample positions. -/
theorem stretchContour_segment (fs : ℚ) (ts f0s gs : List ℚ) (shorter : Bool) (N i n : ℕ)
    (hfs : 0 ≤ fs)
    (hlen1 : f0s.length = ts.length) (hlen2 : gs.length = ts.length)
    (hmono : ∀ b, b < ts.length → ∀ a, a < b → ts.getD a 0 ≤ ts.getD b 0)
    (hi : i + 1 < ts.length)
    (hlo : toSampN fs (ts.getD i 0) ≤ n) (hhi : n < toSampN fs (ts.getD (i + 1) 0))
    (hN : n < N) :
    (stretchContour fs ts f0s gs shorter N).1 n = f0s.getD i 0 ∧
      (stretchContour fs ts f0s gs shorter N).2 n = gs.getD i 0 := by
  unfold stretchContour
  have hK : min (min ts.length f0s.length) gs.length = ts.length := by omega
  rw [hK]
  have hout : ∀ j, i + 1 ≤ j → j < ts.length → n < toSampN fs (ts.getD j 0) := by
    intro j hj1 hj2
    have : ts.getD (i + 1) 0 ≤ ts.getD j 0 := by
      rcases Nat.eq_or_lt_of_le hj1 with he | hl
      · rw [he]
      · exact hmono j hj2 (i + 1) hl
    exact Nat.lt_of_lt_of_le hhi (toSampN_mono hfs this)
  have huntouched := iterSteps_untouched fs ts f0s gs shorter N n
    (fun _ => (0 : ℚ), fun _ => (0 : ℚ)) (i + 1) ts.length (Nat.le_of_lt hi) hout
  have hstep := stretchStep_of_mem fs ts f0s gs shorter N i n
    (iterSteps (stretchStep fs ts f0s gs shorter N) i (fun _ => (0 : ℚ), fun _ => (0 : ℚ)))
    (by omega) hlo hhi hN
  refine ⟨?_, ?_⟩
  · rw [huntouched.1]
    exact hstep.1
  · rw [huntouched.2]
    exact hstep.2

theorem toSampN_div {fs : ℚ} (hfs : fs ≠ 0) (d : ℕ) : toSampN fs ((d : ℚ) / fs) = d := by
  unfold toSampN pyInt
  rw [div_mul_cancel₀ _ hfs]
  simp

theorem toSampN_eval (fs t : ℚ) (k : ℤ) (h : ⌊t * fs⌋ = k) : toSampN fs t = k.toNat := by
  simp [toSampN, pyInt, h]

theorem intToNat_ofNat (n : ℕ) : ((OfNat.ofNat n : ℤ)).toNat = OfNat.ofNat n := rfl

theorem sonify_f0_dense_none_eq (bp0 : ℚ × ℚ) (rest : List (ℚ × ℚ))
    (gains : Option (List ℚ)) (gs : List ℚ) (fs : ℚ)
    (hg : resolveGains (bp0 :: rest) gains = .ok gs) :
    sonify_f0_dense (bp0 :: rest) gains none fs =
      .ok (toSampN fs (((bp0 :: rest).map Prod.fst).getLastD 0),
        stretchContour fs ((bp0 :: rest).map Prod.fst) ((bp0 :: rest).map Prod.snd) gs
          false (toSampN fs (((bp0 :: rest).map Prod.fst).getLastD 0))) := by
  unfold sonify_f0_dense reconcileDuration
  rw [hg]

theorem sonify_f0_dense_none_eq_of (bp0 : ℚ × ℚ) (rest : List (ℚ × ℚ))
    (gains : Option (List ℚ)) (gs : List ℚ) (fs : ℚ) (N : ℕ)
    (hg : resolveGains (bp0 :: rest) gains = .ok gs)
    (hN : toSampN fs (((bp0 :: rest).map Prod.fst).getLastD 0) = N) :
    sonify_f0_dense (bp0 :: rest) gains none fs =
      .ok (N, stretchContour fs ((bp0 :: rest).map Prod.fst)
        ((bp0 :: rest).map Prod.snd) gs false N) := by
  rw [sonify_f0_dense_none_eq bp0 rest gains gs fs hg, hN]

theorem sonify_f0_dense_lt_len (bp0 : ℚ × ℚ) (rest : List (ℚ × ℚ))
    (gains : Option (List ℚ)) (gs : List ℚ) (d : ℕ) (fs : ℚ)
    (hg : resolveGains (bp0 :: rest) gains = .ok gs)
    (hfs : 0 < fs)
    (hd : d < toSampN fs (((bp0 :: rest).map Prod.fst).getLastD 0)) :
    (sonify_f0_dense (bp0 :: rest) gains (some d) fs).map (fun r => r.1) = .ok d := by
  unfold sonify_f0_dense reconcileDuration
  rw [hg]
  have hne : ¬ d = toSampN fs (((bp0 :: rest).map Prod.fst).getLastD 0) := by omega
  simp only [hne, if_false, hd, if_true, Except.map]
  rw [toSampN_div (ne_of_gt hfs)]

theorem sonify_f0_dense_ge_len (bp0 : ℚ × ℚ) (rest : List (ℚ × ℚ))
    (gains : Option (List ℚ)) (gs : List ℚ) (d : ℕ) (fs : ℚ)
    (hg : resolveGains (bp0 :: rest) gains = .ok gs)
    (hfs : 0 < fs)
    (hd : toSampN fs (((bp0 :: rest).map Prod.fst).getLastD 0) ≤ d) :
    (sonify_f0_dense (bp0 :: rest) gains (some d) fs).map (fun r => r.1) = .ok d := by
  unfold sonify_f0_dense reconcileDuration
  rw [hg]
  rcases Nat.eq_or_lt_of_le hd with he | hl
  · simp only [he.symm, if_true, Except.map]
  · have h1 : ¬ d = toSampN fs (((bp0 :: rest).map Prod.fst).getLastD 0) := by omega
    have h2 : ¬ d < toSampN fs (((bp0 :: rest).map Prod.fst).getLastD 0) := by omega
    simp only [h1, h2, if_false, Except.map]
    rw [toSampN_div (ne_of_gt hfs)]

theorem sonify_f0_dense_isOk (bp0 : ℚ × ℚ) (rest : List (ℚ × ℚ))
    (gains : Option (List ℚ)) (gs : List ℚ) (dur : Option ℕ) (fs : ℚ)
    (hg : resolveGains (bp0 :: rest) gains = .ok gs) :
    ∃ r, sonify_f0_dense (bp0 :: rest) gains dur fs = .ok r := by
  unfold sonify_f0_dense reconcileDuration
  rw [hg]
  cases dur with
  | none => exact ⟨_, rfl⟩
  | some d =>
    by_cases h1 : d = toSampN fs (((bp0 :: rest).map Prod.fst).getLastD 0)
    · simp only [h1, if_true]
      exact ⟨_, rfl⟩
    · by_cases h2 : d < toSampN fs (((bp0 :: rest).map Prod.fst).getLastD 0)
      · simp only [h1, h2, if_false, if_true]
        exact ⟨_, rfl⟩
      · simp only [h1, h2, if_false]
        exact ⟨_, rfl⟩

theorem sonify_f0_dense_empty (gains : Option (List ℚ)) (gs : List ℚ)
    (dur : Option ℕ) (fs : ℚ) (hg : resolveGains [] gains = .ok gs) :
    sonify_f0_dense [] gains dur fs = .error .indexOutOfRange := by
  unfold sonify_f0_dense
  rw [hg]

theorem sonify_f0_dense_badGains (time_f0 : List (ℚ × ℚ)) (gains : List ℚ)
    (dur : Option ℕ) (fs : ℚ) (hg : ¬ gains.length = time_f0.length) :
    sonify_f0_dense time_f0 (some gains) dur fs = .error .lengthMismatch := by
  simp [sonify_f0_dense, resolveGains, hg]

theorem generate_tone_length (N : ℕ) (fr gn : ℕ → ℚ) (ps amps : List ℚ)
    (offs : Option (List ℚ)) (fs fade : ℚ) :
    (generate_tone_instantaneous_phase N fr gn ps amps offs fs fade).length = N := by
  simp [generate_tone_instantaneous_phase]

theorem normalize_signal_length (xs : List ℝ) :
    (normalize_signal xs).length = xs.length := by
  unfold normalize_signal
  split
  · rfl
  · simp

theorem sonify_f0_of_dense_ok (time_f0 : List (ℚ × ℚ)) (gains : Option (List ℚ))
    (ps amps : List ℚ) (offs : Option (List ℚ)) (dur : Option ℕ)
    (fade : ℚ) (norm : Bool) (fs : ℚ) (N : ℕ) (c : (ℕ → ℚ) × (ℕ → ℚ))
    (hd : sonify_f0_dense time_f0 gains dur fs = .ok (N, c)) :
    ∃ y, sonify_f0 time_f0 gains ps amps offs dur fade norm fs = .ok y ∧
      y.length = N := by
  unfold sonify_f0
  rw [hd]
  refine ⟨_, rfl, ?_⟩
  cases norm with
  | false => simp [generate_tone_length]
  | true => simp [normalize_signal_length, generate_tone_length]

theorem sonify_f0_of_dense_error (time_f0 : List (ℚ × ℚ)) (gains : Option (List ℚ))
    (ps amps : List ℚ) (offs : Option (List ℚ)) (dur : Option ℕ)
    (fade : ℚ) (norm : Bool) (fs : ℚ) (e : F0Err)
    (hd : sonify_f0_dense time_f0 gains dur fs = .error e) :
    sonify_f0 time_f0 gains ps amps offs dur fade norm fs = .error e := by
  unfold sonify_f0
  rw [hd]

theorem sonify_f0_len_map (time_f0 : List (ℚ × ℚ)) (gains : Option (List ℚ))
    (ps amps : List ℚ) (offs : Option (List ℚ)) (dur : Option ℕ)
    (fade : ℚ) (norm : Bool) (fs : ℚ) (n : ℕ)
    (hd : (sonify_f0_dense time_f0 gains dur fs).map (fun r => r.1) = .ok n) :
    (sonify_f0 time_f0 gains ps amps offs dur fade norm fs).map
      (fun y => y.length) = .ok n := by
  cases hdense : sonify_f0_dense time_f0 gains dur fs with
  | error e =>
    rw [hdense] at hd
    exact absurd hd (by simp [Except.map])
  | ok r =>
    rw [hdense] at hd
    simp only [Except.map] at hd
    obtain ⟨y, hy, hlen⟩ := sonify_f0_of_dense_ok time_f0 gains ps amps offs dur
      fade norm fs r.1 r.2 (by rw [hdense])
    rw [hy]
    simp only [Except.map, hlen]
    exact hd

/-! ### Claims -/

/-- C1, counterexample: for the trajectory `[(0, 440), (0.5, 440)]` at
`fs = 3` and no explicit duration, `sonify_f0` returns a waveform of length
`int(0.5 * 3) = 1`, while `ceil(0.5 * 3) = 2`: the length is the truncation,
not the round-up claimed. -/
theorem claim_C1_counterexample :
    (sonify_f0 [((0 : ℚ), 440), (1/2, 440)] none [1] [1] none none (1/20) true 3).map
        (fun y => y.length) = .ok 1 ∧ (⌈(1/2 : ℚ) * 3⌉ : ℤ) = 2 ∧ (1 : ℕ) ≠ 2 := by
  refine ⟨?_, by rw [Int.ceil_eq_iff]; norm_num, by decide⟩
  apply sonify_f0_len_map
  norm_num [sonify_f0_dense, resolveGains, reconcileDuration, toSampN, pyInt, Except.map]

/-- C1, amended: with no explicit sonification duration, the waveform
returned by `sonify_f0` (and the dense contour it is built from) has length
`int(last_breakpoint_time * fs)` — the floor (Python `int` truncation) of
`last_time * fs`, not its ceiling. -/
theorem claim_C1_floor_length (bp0 : ℚ × ℚ) (rest : List (ℚ × ℚ))
    (gains : Option (List ℚ)) (gs ps amps : List ℚ) (offs : Option (List ℚ))
    (fade : ℚ) (norm : Bool) (fs : ℚ)
    (hg : resolveGains (bp0 :: rest) gains = .ok gs) :
    (sonify_f0 (bp0 :: rest) gains ps amps offs none fade norm fs).map
      (fun y => y.length) =
      .ok (toSampN fs (((bp0 :: rest).map Prod.fst).getLastD 0)) := by
  apply sonify_f0_len_map
  rw [sonify_f0_dense_none_eq bp0 rest gains gs fs hg]
  rfl

/-- C1, witness for the amended claim at the counterexample input. -/
theorem claim_C1_floor_length_witness :
    (sonify_f0 [((0 : ℚ), 440), (1/2, 440)] none [1] [1] none none (1/20) true 3).map
      (fun y => y.length) = .ok 1 := by
  have h := claim_C1_floor_length ((0 : ℚ), 440) [(1/2, 440)] none
    (List.replicate 2 1) [1] [1] none (1/20) true 3 rfl
  rw [h]
  congr 1
  rw [toSampN_eval 3 _ 1 (by norm_num [List.getLastD])]
  rfl

/-- C2: at the failing input `time_f0 = [(0, 440), (1, 440)]`, `fs = 4`,
`sonification_duration = 8` (natural length 4), the dense arrays on the
padded span `[4, 8)` carry the last breakpoint's frequency `440` and gain
`1`, not the silence (frequency 0, gain 0) that the spec requires: the
appended frequency-0 breakpoint governs an empty sample range and the gains
array is never extended, so `zip` silently drops the final iteration. -/
theorem claim_C2_padding_not_silent :
    (sonify_f0_dense [((0 : ℚ), 440), (1, 440)] none (some 8) 4).map
        (fun r => (r.1, r.2.1 5, r.2.2 5)) = .ok (8, 440, 1) ∧
      ((440 : ℚ) ≠ 0 ∧ (1 : ℚ) ≠ 0) := by
  have hleft :
      (sonify_f0_dense [((0 : ℚ), 440), (1, 440)] none (some 8) 4).map
        (fun r => (r.1, r.2.1 5, r.2.2 5)) = .ok (8, 440, 1) := by
    norm_num [sonify_f0_dense, resolveGains, reconcileDuration, toSampN, pyInt, Except.map,
      stretchContour, iterSteps, stretchStep, setRange, Int.toNat]
  exact ⟨hleft, by norm_num, by norm_num⟩

/-- C3, counterexample: a trajectory whose times are not strictly increasing
(`[(1, 440), (0.5, 220)]`) is not rejected: `sonify_f0` returns a buffer (of
length `int(0.5 * 4) = 2`) instead of failing. -/
theorem claim_C3_counterexample :
    (sonify_f0 [((1 : ℚ), 440), (1/2, 220)] none [1] [1] none none (1/20) true 4).map
        (fun y => y.length) = .ok 2 ∧ ¬ ((1 : ℚ) < 1/2) := by
  constructor
  · apply sonify_f0_len_map
    norm_num [sonify_f0_dense, resolveGains, reconcileDuration, toSampN, pyInt, Except.map,
      Int.toNat]
  · norm_num

/-- C3, amended: an empty trajectory does make `sonify_f0` fail before any
synthesis (with an `AssertionError` or `IndexError`, not a dedicated
trajectory-validation error), but time monotonicity is never checked: for
every non-empty trajectory whose gains resolve, `sonify_f0` returns a
buffer, whether or not the times are increasing. -/
theorem claim_C3_no_validation :
    (∀ (gains : Option (List ℚ)) (ps amps : List ℚ) (offs : Option (List ℚ))
        (dur : Option ℕ) (fade : ℚ) (norm : Bool) (fs : ℚ),
      ∃ e, sonify_f0 [] gains ps amps offs dur fade norm fs = .error e) ∧
      (∀ (bp0 : ℚ × ℚ) (rest : List (ℚ × ℚ)) (gains : Option (List ℚ))
          (gs ps amps : List ℚ) (offs : Option (List ℚ)) (dur : Option ℕ)
          (fade : ℚ) (norm : Bool) (fs : ℚ),
        resolveGains (bp0 :: rest) gains = .ok gs →
        ∃ y, sonify_f0 (bp0 :: rest) gains ps amps offs dur fade norm fs = .ok y) := by
  constructor
  · intro gains ps amps offs dur fade norm fs
    cases gains with
    | none =>
      exact ⟨_, sonify_f0_of_dense_error [] none ps amps offs dur fade norm fs _
        (sonify_f0_dense_empty none (List.replicate 0 1) dur fs rfl)⟩
    | some gsv =>
      by_cases hlen : gsv.length = ([] : List (ℚ × ℚ)).length
      · refine ⟨_, sonify_f0_of_dense_error [] (some gsv) ps amps offs dur fade norm fs _
          (sonify_f0_dense_empty (some gsv) gsv dur fs ?_)⟩
        simp [resolveGains, hlen]
      · exact ⟨_, sonify_f0_of_dense_error [] (some gsv) ps amps offs dur fade norm fs _
          (sonify_f0_dense_badGains [] gsv dur fs hlen)⟩
  · intro bp0 rest gains gs ps amps offs dur fade norm fs hg
    obtain ⟨r, hr⟩ := sonify_f0_dense_isOk bp0 rest gains gs dur fs hg
    obtain ⟨y, hy, _⟩ := sonify_f0_of_dense_ok (bp0 :: rest) gains ps amps offs dur
      fade norm fs r.1 r.2 (by rw [hr])
    exact ⟨y, hy⟩

/-- C3, witness for the amended claim: the empty trajectory errors; the
non-monotonic two-breakpoint trajectory is synthesized without complaint. -/
theorem claim_C3_no_validation_witness :
    (∃ e, sonify_f0 [] none [1] [1] none none (1/20) true 4 = .error e) ∧
      ∃ y, sonify_f0 [((1 : ℚ), 440), (1/2, 220)] none [1] [1] none none
        (1/20) true 4 = .ok y :=
  ⟨claim_C3_no_validation.1 none [1] [1] none none (1/20) true 4,
    claim_C3_no_validation.2 ((1 : ℚ), 440) [(1/2, 220)] none
      (List.replicate 2 1) [1] [1] none none (1/20) true 4 rfl⟩

/-- C4: an explicit sonification duration strictly smaller than the natural
length makes `sonify_f0` return a waveform of exactly that length (the
trajectory is cropped and a synthetic breakpoint at the target time governs
the buffer size). -/
theorem claim_C4_truncation (bp0 : ℚ × ℚ) (rest : List (ℚ × ℚ))
    (gains : Option (List ℚ)) (gs ps amps : List ℚ) (offs : Option (List ℚ))
    (d : ℕ) (fade : ℚ) (norm : Bool) (fs : ℚ)
    (hg : resolveGains (bp0 :: rest) gains = .ok gs)
    (hfs : 0 < fs)
    (hd : d < toSampN fs (((bp0 :: rest).map Prod.fst).getLastD 0)) :
    (sonify_f0 (bp0 :: rest) gains ps amps offs (some d) fade norm fs).map
      (fun y => y.length) = .ok d :=
  sonify_f0_len_map (bp0 :: rest) gains ps amps offs (some d) fade norm fs d
    (sonify_f0_dense_lt_len bp0 rest gains gs d fs hg hfs hd)

/-- C4, witness: trajectory `[(0, 440), (1, 440)]` at `fs = 4` (natural
length 4) cropped to 2 samples. -/
theorem claim_C4_truncation_witness :
    (sonify_f0 [((0 : ℚ), 440), (1, 440)] none [1] [1] none (some 2)
      (1/20) true 4).map (fun y => y.length) = .ok 2 :=
  claim_C4_truncation ((0 : ℚ), 440) [(1, 440)] none (List.replicate 2 1)
    [1] [1] none 2 (1/20) true 4 rfl (by norm_num)
    (by
      rw [toSampN_eval 4 _ 4 (by norm_num [List.getLastD])]
      decide)

theorem resolveGains_length (time_f0 : List (ℚ × ℚ)) (gains : Option (List ℚ))
    (gs : List ℚ) (hg : resolveGains time_f0 gains = .ok gs) :
    gs.length = time_f0.length := by
  cases gains with
  | none =>
    simp only [resolveGains] at hg
    cases hg
    simp
  | some gsv =>
    simp only [resolveGains] at hg
    by_cases h : gsv.length = time_f0.length
    · rw [if_pos h] at hg
      cases hg
      exact h
    · rw [if_neg h] at hg
      cases hg

theorem getLastD_eq_getD (l : List ℚ) : ∀ d : ℚ, l ≠ [] →
    l.getLastD d = l.getD (l.length - 1) d := by
  induction l with
  | nil => intro d h; exact absurd rfl h
  | cons a m ih =>
    intro d _
    cases m with
    | nil => rfl
    | cons b m2 =>
      rw [List.getLastD_cons, ih a (by simp)]
      have h1 : ((b :: m2).length - 1) < (b :: m2).length := by simp
      have h2 : ((a :: b :: m2).length - 1) < (a :: b :: m2).length := by simp
      rw [List.getD_eq_getElem _ a h1, List.getD_eq_getElem _ d h2]
      have h3 : (a :: b :: m2).length - 1 = ((b :: m2).length - 1) + 1 := by simp
      simp only [h3, List.getElem_cons_succ]

theorem pairwise_lt_getD (l : List ℚ) (hp : l.Pairwise (· < ·)) (b : ℕ)
    (hb : b < l.length) (a : ℕ) (hab : a < b) : l.getD a 0 < l.getD b 0 := by
  rw [List.getD_eq_getElem l 0 (Nat.lt_trans hab hb), List.getD_eq_getElem l 0 hb]
  rw [List.pairwise_iff_get] at hp
  have := hp ⟨a, Nat.lt_trans hab hb⟩ ⟨b, hb⟩ hab
  simpa using this

/-- C5: for a valid trajectory (strictly increasing times) with no explicit
duration, every sample index in the half-open range
`[int(t_i * fs), int(t_{i+1} * fs))` of a pair of consecutive breakpoints is
assigned breakpoint `i`'s frequency and gain in the dense contours: zero-order
hold, no interpolation. -/
theorem claim_C5_zero_order_hold (bp0 : ℚ × ℚ) (rest : List (ℚ × ℚ))
    (gains : Option (List ℚ)) (gs : List ℚ) (fs : ℚ) (i n : ℕ)
    (hg : resolveGains (bp0 :: rest) gains = .ok gs)
    (hfs : 0 ≤ fs)
    (hmono : (((bp0 :: rest)).map Prod.fst).Pairwise (· < ·))
    (hi : i + 1 < (bp0 :: rest).length)
    (hlo : toSampN fs (((bp0 :: rest).map Prod.fst).getD i 0) ≤ n)
    (hhi : n < toSampN fs (((bp0 :: rest).map Prod.fst).getD (i + 1) 0)) :
    ∃ fr gn,
      sonify_f0_dense (bp0 :: rest) gains none fs =
        .ok (toSampN fs (((bp0 :: rest).map Prod.fst).getLastD 0), (fr, gn)) ∧
      fr n = ((bp0 :: rest).map Prod.snd).getD i 0 ∧ gn n = gs.getD i 0 := by
  have hlen : ((bp0 :: rest).map Prod.fst).length = (bp0 :: rest).length := by simp
  have hlast :
      ((bp0 :: rest).map Prod.fst).getLastD 0 =
        ((bp0 :: rest).map Prod.fst).getD (((bp0 :: rest).map Prod.fst).length - 1) 0 :=
    getLastD_eq_getD _ 0 (by simp)
  have hle :
      ((bp0 :: rest).map Prod.fst).getD (i + 1) 0 ≤
        ((bp0 :: rest).map Prod.fst).getD (((bp0 :: rest).map Prod.fst).length - 1) 0 := by
    rcases Nat.eq_or_lt_of_le (show i + 1 ≤ ((bp0 :: rest).map Prod.fst).length - 1 by omega)
      with he | hl
    · rw [he]
    · exact le_of_lt (pairwise_lt_getD _ hmono _ (by omega) _ hl)
  have hN : n < toSampN fs (((bp0 :: rest).map Prod.fst).getLastD 0) := by
    rw [hlast]
    exact Nat.lt_of_lt_of_le hhi (toSampN_mono hfs hle)
  rw [sonify_f0_dense_none_eq bp0 rest gains gs fs hg]
  refine ⟨_, _, rfl, ?_, ?_⟩
  · exact (stretchContour_segment fs ((bp0 :: rest).map Prod.fst)
      ((bp0 :: rest).map Prod.snd) gs false
      (toSampN fs (((bp0 :: rest).map Prod.fst).getLastD 0)) i n
      hfs (by simp) (by simp [resolveGains_length _ _ _ hg])
      (fun b hb a hab => le_of_lt (pairwise_lt_getD _ hmono b hb a hab))
      (by omega) hlo hhi hN).1
  · exact (stretchContour_segment fs ((bp0 :: rest).map Prod.fst)
      ((bp0 :: rest).map Prod.snd) gs false
      (toSampN fs (((bp0 :: rest).map Prod.fst).getLastD 0)) i n
      hfs (by simp) (by simp [resolveGains_length _ _ _ hg])
      (fun b hb a hab => le_of_lt (pairwise_lt_getD _ hmono b hb a hab))
      (by omega) hlo hhi hN).2

/-- C5, witness: trajectory `[(0, 440), (0.5, 220), (1, 110)]` at `fs = 4`;
sample 2 lies in the range `[2, 4)` of the middle breakpoint and receives
frequency 220 and gain 1. -/
theorem claim_C5_zero_order_hold_witness :
    ∃ fr gn,
      sonify_f0_dense [((0 : ℚ), 440), (1/2, 220), (1, 110)] none none 4 =
        .ok (toSampN 4 ((([((0 : ℚ), 440), (1/2, 220), (1, 110)]).map Prod.fst).getLastD 0),
          (fr, gn)) ∧
      fr 2 = 220 ∧ gn 2 = 1 := by
  obtain ⟨fr, gn, h1, h2, h3⟩ := claim_C5_zero_order_hold ((0 : ℚ), 440)
    [(1/2, 220), (1, 110)] none (List.replicate 3 1) 4 1 2 rfl (by norm_num)
    (by norm_num [List.pairwise_cons])
    (by decide)
    (by
      show toSampN 4 (1/2) ≤ 2
      rw [toSampN_eval 4 (1/2) 2 (by norm_num)]
      decide)
    (by
      show 2 < toSampN 4 1
      rw [toSampN_eval 4 1 4 (by norm_num)]
      decide)
  refine ⟨fr, gn, h1, ?_, ?_⟩
  · rw [h2]
    rfl
  · rw [h3]
    rfl

theorem except_map_ok {α β : Type} (f : α → β) (e : Except F0Err α) (b : β)
    (h : e.map f = .ok b) : ∃ a, e = .ok a ∧ f a = b := by
  cases e with
  | error e2 => simp [Except.map] at h
  | ok a =>
    refine ⟨a, rfl, ?_⟩
    simpa [Except.map] using h

theorem sonify_f0_dense_some_len (bp0 : ℚ × ℚ) (rest : List (ℚ × ℚ))
    (gains : Option (List ℚ)) (gs : List ℚ) (d : ℕ) (fs : ℚ)
    (hg : resolveGains (bp0 :: rest) gains = .ok gs)
    (hfs : 0 < fs) :
    (sonify_f0_dense (bp0 :: rest) gains (some d) fs).map (fun r => r.1) = .ok d := by
  rcases Nat.lt_or_ge d (toSampN fs (((bp0 :: rest).map Prod.fst).getLastD 0)) with h | h
  · exact sonify_f0_dense_lt_len bp0 rest gains gs d fs hg hfs h
  · exact sonify_f0_dense_ge_len bp0 rest gains gs d fs hg hfs h

theorem sonify_f0_some_len (bp0 : ℚ × ℚ) (rest : List (ℚ × ℚ))
    (gains : Option (List ℚ)) (gs ps amps : List ℚ) (offs : Option (List ℚ))
    (d : ℕ) (fade : ℚ) (norm : Bool) (fs : ℚ)
    (hg : resolveGains (bp0 :: rest) gains = .ok gs)
    (hfs : 0 < fs) :
    (sonify_f0 (bp0 :: rest) gains ps amps offs (some d) fade norm fs).map
      (fun y => y.length) = .ok d :=
  sonify_f0_len_map (bp0 :: rest) gains ps amps offs (some d) fade norm fs d
    (sonify_f0_dense_some_len bp0 rest gains gs d fs hg hfs)

theorem mixLoop_ok (registry : String → Option (List ℚ × List ℚ)) (fs fade : ℚ) (d : ℕ)
    (hfs : 0 < fs) :
    ∀ (voices : List Voice) (buf : List ℝ), buf.length = d →
    (∀ v ∈ voices, v.time_f0 ≠ []) →
    (∀ v ∈ voices, ∃ pa, registry v.preset = some pa) →
    (∀ v ∈ voices, (voiceGains v).length = v.time_f0.length) →
    ∃ y, mixLoop registry fs fade d voices buf = .ok y ∧ y.length = d := by
  intro voices
  induction voices with
  | nil =>
    intro buf hbuf _ _ _
    exact ⟨buf, rfl, hbuf⟩
  | cons v rest ih =>
    intro buf hbuf hv hreg hgain
    obtain ⟨pa, hpa⟩ := hreg v (by simp)
    obtain ⟨bp0, rest2, hsplit⟩ : ∃ a l, v.time_f0 = a :: l := by
      cases hv0 : v.time_f0 with
      | nil => exact absurd hv0 (hv v (by simp))
      | cons a l => exact ⟨a, l, rfl⟩
    have hrg : resolveGains v.time_f0 (some (voiceGains v)) = .ok (voiceGains v) := by
      simp [resolveGains, hgain v (by simp)]
    have hlenmap : (sonify_f0 v.time_f0 (some (voiceGains v)) pa.1 pa.2 none (some d)
        fade false fs).map (fun y => y.length) = .ok d := by
      rw [hsplit] at hrg ⊢
      exact sonify_f0_some_len bp0 rest2 (some _) (voiceGains v) pa.1 pa.2 none d
        fade false fs hrg hfs
    obtain ⟨w, hw, hwlen⟩ := except_map_ok _ _ _ hlenmap
    have hzip : (List.zipWith (fun a b => a + b) buf w).length = d := by
      simp [hbuf, hwlen]
    obtain ⟨y, hy, hylen⟩ := ih (List.zipWith (fun a b => a + b) buf w) hzip
      (fun u hu => hv u (by simp [hu]))
      (fun u hu => hreg u (by simp [hu]))
      (fun u hu => hgain u (by simp [hu]))
    refine ⟨y, ?_, hylen⟩
    simp only [mixLoop, hpa, hw, hbuf, hwlen, if_pos]
    exact hy

theorem maxLastTime_isOk (voices : List Voice) :
    (∀ v ∈ voices, v.time_f0 ≠ []) → ∀ m0 : ℚ, ∃ M, maxLastTime voices m0 = .ok M := by
  induction voices with
  | nil =>
    intro _ m0
    exact ⟨m0, rfl⟩
  | cons v rest ih =>
    intro hv m0
    have hne : v.time_f0 ≠ [] := hv v (by simp)
    have hsome : v.time_f0.getLast?.isSome := by
      rw [List.getLast?_isSome]
      exact hne
    obtain ⟨bp, hbp⟩ := Option.isSome_iff_exists.mp hsome
    obtain ⟨M, hM⟩ := ih (fun u hu => hv u (by simp [hu]))
      (if m0 < bp.1 then bp.1 else m0)
    refine ⟨M, ?_⟩
    unfold maxLastTime
    rw [hbp]
    exact hM

/-- C6: with no explicit duration, the mixer's common length is
`int(ceil(fs * max_time))` over the voices' last breakpoint times, the mixer
succeeds with a buffer of that length, and every voice's own synthesized
buffer (with the common duration passed down) has exactly that length, so
the `+=` accumulation never sees a length mismatch. -/
theorem claim_C6_common_length (registry : String → Option (List ℚ × List ℚ))
    (voices : List Voice) (fade : ℚ) (norm : Bool) (fs : ℚ) (M : ℚ)
    (_hne : voices ≠ [])
    (hv : ∀ v ∈ voices, v.time_f0 ≠ [])
    (hreg : ∀ v ∈ voices, (registry v.preset).isSome = true)
    (hgain : ∀ v ∈ voices, (voiceGains v).length = v.time_f0.length)
    (hfs : 0 < fs)
    (hM : maxLastTime voices 0 = .ok M) :
    ∃ y, sonify_f0_with_presets registry voices none fade norm fs = .ok y ∧
      y.length = (⌈fs * M⌉).toNat ∧
      ∀ v ∈ voices, ∀ pa : List ℚ × List ℚ, registry v.preset = some pa →
        ∃ w, sonify_f0 v.time_f0 (some (voiceGains v)) pa.1 pa.2 none
            (some ((⌈fs * M⌉).toNat)) fade false fs = .ok w ∧
          w.length = (⌈fs * M⌉).toNat := by
  obtain ⟨y, hy, hylen⟩ := mixLoop_ok registry fs fade ((⌈fs * M⌉).toNat) hfs voices
    (List.replicate ((⌈fs * M⌉).toNat) (0 : ℝ)) (by simp) hv
    (fun v hv2 => Option.isSome_iff_exists.mp (hreg v hv2)) hgain
  refine ⟨if norm then normalize_signal y else y, ?_, ?_, ?_⟩
  · simp only [sonify_f0_with_presets, hM, hy]
  · cases norm with
    | false => simpa using hylen
    | true => simpa [normalize_signal_length] using hylen
  · intro v hv2 pa _
    obtain ⟨bp0, rest2, hsplit⟩ : ∃ a l, v.time_f0 = a :: l := by
      cases hv0 : v.time_f0 with
      | nil => exact absurd hv0 (hv v hv2)
      | cons a l => exact ⟨a, l, rfl⟩
    have hrg : resolveGains v.time_f0 (some (voiceGains v)) = .ok (voiceGains v) := by
      simp [resolveGains, hgain v hv2]
    have hlenmap : (sonify_f0 v.time_f0 (some (voiceGains v)) pa.1 pa.2 none
        (some ((⌈fs * M⌉).toNat)) fade false fs).map (fun y2 => y2.length) =
        .ok ((⌈fs * M⌉).toNat) := by
      rw [hsplit] at hrg ⊢
      exact sonify_f0_some_len bp0 rest2 (some _) (voiceGains v) pa.1 pa.2 none _
        fade false fs hrg hfs
    exact except_map_ok _ _ _ hlenmap

/-- C6, witness: a single default-gain voice `[(0, 440), (1, 440)]` at
`fs = 4`; the common length is `ceil(4 * 1) = 4`. -/
theorem claim_C6_common_length_witness :
    ∃ y, sonify_f0_with_presets (fun _ => some ([1], [1]))
        [⟨[((0 : ℚ), 440), (1, 440)], "violin", none⟩] none (1/20) true 4 = .ok y ∧
      y.length = (⌈(4 : ℚ) * 1⌉).toNat ∧
      ∀ v ∈ [(⟨[((0 : ℚ), 440), (1, 440)], "violin", none⟩ : Voice)],
        ∀ pa : List ℚ × List ℚ, (fun _ => some ([1], [1]) :
            String → Option (List ℚ × List ℚ)) v.preset = some pa →
        ∃ w, sonify_f0 v.time_f0 (some (voiceGains v)) pa.1 pa.2 none
            (some ((⌈(4 : ℚ) * 1⌉).toNat)) (1/20) false 4 = .ok w ∧
          w.length = (⌈(4 : ℚ) * 1⌉).toNat :=
  claim_C6_common_length (fun _ => some ([1], [1]))
    [⟨[((0 : ℚ), 440), (1, 440)], "violin", none⟩] (1/20) true 4 1
    (by simp)
    (by simp)
    (by simp)
    (by simp [voiceGains])
    (by norm_num)
    (by
      show maxLastTime [⟨[((0 : ℚ), 440), (1, 440)], "violin", none⟩] 0 = .ok 1
      norm_num [maxLastTime])

/-- C7, counterexample: called with zero voices (and no explicit duration),
the mixer does not fail — it returns the empty waveform. -/
theorem claim_C7_counterexample :
    sonify_f0_with_presets (fun _ => some ([1], [1])) [] none (1/20) false 22050 =
      .ok [] := by
  norm_num [sonify_f0_with_presets, maxLastTime, mixLoop, Int.toNat]

/-- C7, amended: with an empty voice mapping and no explicit duration,
`sonify_f0_with_presets` raises no error: the computed common duration is 0
and the returned waveform is empty. -/
theorem claim_C7_empty_voices (registry : String → Option (List ℚ × List ℚ))
    (fade : ℚ) (norm : Bool) (fs : ℚ) :
    sonify_f0_with_presets registry [] none fade norm fs = .ok [] := by
  have hz : (⌈fs * 0⌉).toNat = 0 := by simp
  simp only [sonify_f0_with_presets, maxLastTime, hz, mixLoop, List.replicate]
  cases norm with
  | false => rfl
  | true => simp [normalize_signal, signalPeak]

/-- C8: a per-breakpoint gain array whose length differs from the breakpoint
count makes the call fail with the gains-length assertion — both when handed
directly to `sonify_f0` and when a voice of `sonify_f0_with_presets`
carries an array gain; a scalar voice gain is broadcast to `ones * g` (one
entry per breakpoint) and such a call never fails on gain length. -/
theorem claim_C8_gain_length :
    (∀ (time_f0 : List (ℚ × ℚ)) (gsv ps amps : List ℚ) (offs : Option (List ℚ))
        (dur : Option ℕ) (fade : ℚ) (norm : Bool) (fs : ℚ),
      ¬ gsv.length = time_f0.length →
      sonify_f0 time_f0 (some gsv) ps amps offs dur fade norm fs =
        .error .lengthMismatch) ∧
    (∀ (registry : String → Option (List ℚ × List ℚ)) (v : Voice) (gsv : List ℚ)
        (d : ℕ) (fade : ℚ) (norm : Bool) (fs : ℚ) (pa : List ℚ × List ℚ),
      v.gain = some (.arr gsv) → ¬ gsv.length = v.time_f0.length →
      registry v.preset = some pa →
      sonify_f0_with_presets registry [v] (some d) fade norm fs =
        .error .lengthMismatch) ∧
    (∀ (registry : String → Option (List ℚ × List ℚ)) (v : Voice) (g : ℚ)
        (d : ℕ) (fade : ℚ) (norm : Bool) (fs : ℚ) (pa : List ℚ × List ℚ),
      v.gain = some (.scalar g) → v.time_f0 ≠ [] →
      registry v.preset = some pa → 0 < fs →
      ∃ y, sonify_f0_with_presets registry [v] (some d) fade norm fs = .ok y) := by
  refine ⟨?_, ?_, ?_⟩
  · intro time_f0 gsv ps amps offs dur fade norm fs hlen
    exact sonify_f0_of_dense_error time_f0 (some gsv) ps amps offs dur fade norm fs _
      (sonify_f0_dense_badGains time_f0 gsv dur fs hlen)
  · intro registry v gsv d fade norm fs pa hgain hlen hpa
    have hvg : voiceGains v = gsv := by simp [voiceGains, hgain]
    have hs : sonify_f0 v.time_f0 (some (voiceGains v)) pa.1 pa.2 none (some d)
        fade false fs = .error .lengthMismatch := by
      rw [hvg]
      exact sonify_f0_of_dense_error v.time_f0 (some gsv) pa.1 pa.2 none (some d)
        fade false fs _ (sonify_f0_dense_badGains v.time_f0 gsv (some d) fs hlen)
    simp only [sonify_f0_with_presets, mixLoop, hpa, hs]
  · intro registry v g d fade norm fs pa hgain hne hpa hfs
    obtain ⟨y, hy, _⟩ := mixLoop_ok registry fs fade d hfs [v]
      (List.replicate d (0 : ℝ)) (by simp)
      (by intro u hu; rw [List.mem_singleton] at hu; rw [hu]; exact hne)
      (by intro u hu; rw [List.mem_singleton] at hu; rw [hu]; exact ⟨pa, hpa⟩)
      (by
        intro u hu
        rw [List.mem_singleton] at hu
        rw [hu]
        simp [voiceGains, hgain])
    exact ⟨if norm then normalize_signal y else y, by simp only [sonify_f0_with_presets, hy]⟩

/-- C8, witness: one two-breakpoint trajectory; a one-element gain array
fails directly and through the mixer; a scalar gain `0.5` succeeds through
the mixer. -/
theorem claim_C8_gain_length_witness :
    sonify_f0 [((0 : ℚ), 440), (1, 440)] (some [1]) [1] [1] none none
        (1/20) true 4 = .error .lengthMismatch ∧
      sonify_f0_with_presets (fun _ => some ([1], [1]))
        [⟨[((0 : ℚ), 440), (1, 440)], "piano", some (.arr [1])⟩] (some 4)
        (1/20) true 4 = .error .lengthMismatch ∧
      ∃ y, sonify_f0_with_presets (fun _ => some ([1], [1]))
        [⟨[((0 : ℚ), 440), (1, 440)], "piano", some (.scalar (1/2))⟩] (some 4)
        (1/20) true 4 = .ok y :=
  ⟨claim_C8_gain_length.1 [((0 : ℚ), 440), (1, 440)] [1] [1] [1] none none
      (1/20) true 4 (by decide),
    claim_C8_gain_length.2.1 (fun _ => some ([1], [1]))
      ⟨[((0 : ℚ), 440), (1, 440)], "piano", some (.arr [1])⟩ [1] 4 (1/20) true 4
      ([1], [1]) rfl (by decide) rfl,
    claim_C8_gain_length.2.2 (fun _ => some ([1], [1]))
      ⟨[((0 : ℚ), 440), (1, 440)], "piano", some (.scalar (1/2))⟩ (1/2) 4
      (1/20) true 4 ([1], [1]) rfl (by decide) rfl (by norm_num)⟩

theorem getD_range_map (N n : ℕ) (g : ℕ → ℝ) (h : n < N) :
    ((List.range N).map g).getD n 0 = g n := by
  rw [List.getD_eq_getElem _ 0 (by simp [h])]
  simp

/-- Every sample index below the natural length falls in the half-open
sample range of some pair of consecutive breakpoints, provided the first
breakpoint maps to a sample position at or before the index. -/
theorem stretch_cover (fs : ℚ) : ∀ (ts : List ℚ) (k : ℕ),
    toSampN fs (ts.getD 0 0) ≤ k →
    k < toSampN fs (ts.getD (ts.length - 1) 0) →
    ∃ i, i + 1 < ts.length ∧ toSampN fs (ts.getD i 0) ≤ k ∧
      k < toSampN fs (ts.getD (i + 1) 0) := by
  intro ts
  induction ts with
  | nil =>
    intro k h1 h2
    simp only [List.getD_nil] at h1 h2
    omega
  | cons t0 l ih =>
    intro k h1 h2
    cases l with
    | nil =>
      have hz : (t0 :: ([] : List ℚ)).length - 1 = 0 := rfl
      rw [hz, List.getD_cons_zero] at h2
      rw [List.getD_cons_zero] at h1
      omega
    | cons t1 l2 =>
      by_cases hcase : k < toSampN fs ((t1 :: l2).getD 0 0)
      · exact ⟨0, by simp, h1, hcase⟩
      · push_neg at hcase
        have hlen : (t0 :: t1 :: l2).length - 1 = ((t1 :: l2).length - 1) + 1 := by
          simp
        rw [hlen, List.getD_cons_succ] at h2
        obtain ⟨i, hi, hlo, hhi⟩ := ih k hcase h2
        refine ⟨i + 1, ?_, ?_, ?_⟩
        · simp only [List.length_cons] at hi ⊢
          omega
        · rw [List.getD_cons_succ]
          exact hlo
        · rw [List.getD_cons_succ]
          exact hhi

theorem cycleSum_const (fr : ℕ → ℚ) (f fs : ℚ) (n : ℕ)
    (h : ∀ k, k ≤ n → fr k = f) :
    cycleSum fr 1 fs n = ((n : ℚ) + 1) * f / fs := by
  induction n with
  | zero =>
    rw [cycleSum, h 0 (le_refl 0)]
    ring
  | succ m ih =>
    rw [cycleSum, ih (fun k hk => h k (Nat.le_succ_of_le hk)), h (m + 1) (le_refl _)]
    push_cast
    ring

/-- The modelled oscillator at a single unit partial with unit amplitude, no
phase offset and zero fade: sample `n` is `sin(2π · cycleSum(n)) · gain[n]`. -/
theorem tone_single_sample (N : ℕ) (fr gn : ℕ → ℚ) (fs : ℚ) (n : ℕ) (hn : n < N) :
    (generate_tone_instantaneous_phase N fr gn [1] [1] none fs 0).getD n 0 =
      Real.sin (2 * Real.pi * ((cycleSum fr 1 fs n : ℚ) : ℝ)) * ((gn n : ℚ) : ℝ) := by
  unfold generate_tone_instantaneous_phase
  have hL0 : (pyInt (0 * fs)).toNat = 0 := by simp [pyInt]
  rw [getD_range_map _ _ _ hn]
  have hfade : fadeFactor N (if N < 2 * (pyInt (0 * fs)).toNat then N / 2
      else (pyInt (0 * fs)).toNat) n = 1 := by
    rw [hL0]
    have hnotlt : ¬ N < 2 * 0 := by omega
    rw [if_neg hnotlt]
    unfold fadeFactor
    have h1 : ¬ n < 0 := by omega
    have h2 : ¬ N ≤ n + 0 := by omega
    rw [if_neg h1, if_neg h2]
    norm_num
  rw [hfade, mul_one]
  simp [oscSample]

/-- C9, counterexample: for the constant trajectory `[(0, 1), (1, 1)]` at
`fs = 4` (frequency 1 Hz, single unit partial, no offset, zero fade, no
normalization), sample 0 of the output is `sin(2π·1·(0+1)/4) = sin(π/2) = 1`,
while the claim's formula `sin(2π·f·n/fs)` gives `sin(0) = 0` at `n = 0`:
the spec's accumulate-then-evaluate order advances the phase one step before
the first sample is taken. -/
theorem claim_C9_counterexample :
    (sonify_f0 [((0 : ℚ), 1), (1, 1)] none [1] [1] none none 0 false 4).map
        (fun y => y.getD 0 0) = .ok 1 ∧
      Real.sin (2 * Real.pi * 1 * 0 / 4) ≠ 1 := by
  constructor
  · have hg : resolveGains [((0 : ℚ), 1), (1, 1)] none = .ok (List.replicate 2 1) := rfl
    have hdense := sonify_f0_dense_none_eq_of ((0 : ℚ), 1) [(1, 1)] none
      (List.replicate 2 1) 4 4 hg
      (by
        show toSampN 4 1 = 4
        rw [toSampN_eval 4 1 4 (by norm_num)]
        rfl)
    simp only [sonify_f0, hdense, Bool.false_eq_true, if_false, Except.map]
    rw [tone_single_sample 4 _ _ 4 0 (by omega)]
    norm_num [cycleSum, stretchContour, iterSteps, stretchStep, setRange, toSampN, pyInt,
      Int.toNat, Except.ok.injEq]
    convert Real.sin_pi_div_two using 2
    ring
  · rw [show (2 * Real.pi * 1 * 0 / 4 : ℝ) = 0 from by ring, Real.sin_zero]
    norm_num

/-- C9, amended: for a constant-frequency trajectory starting at time 0
(single unit partial, amplitude 1, no phase offset, zero fade, normalization
off), the synthesized waveform is the pure sine **advanced by one sample**:
sample `n` equals `sin(2π · f · (n + 1) / fs)` exactly — the running phase
accumulator starts at the offset and is incremented before each sample is
evaluated, and is never reset mid-buffer. -/
theorem claim_C9_one_sample_shift (bp0 : ℚ × ℚ) (rest : List (ℚ × ℚ)) (f fs : ℚ)
    (hfs : 0 < fs)
    (hmono : ((bp0 :: rest).map Prod.fst).Pairwise (· < ·))
    (ht0 : bp0.1 = 0)
    (hconst : ∀ k, k < (bp0 :: rest).length →
      ((bp0 :: rest).map Prod.snd).getD k 0 = f) :
    ∃ y, sonify_f0 (bp0 :: rest) none [1] [1] none none 0 false fs = .ok y ∧
      ∀ n, n < y.length →
        y.getD n 0 = Real.sin (2 * Real.pi * (f : ℝ) * ((n : ℝ) + 1) / (fs : ℝ)) := by
  have hg : resolveGains (bp0 :: rest) none =
      .ok (List.replicate (bp0 :: rest).length 1) := rfl
  have hdense := sonify_f0_dense_none_eq bp0 rest none _ fs hg
  refine ⟨generate_tone_instantaneous_phase
    (toSampN fs (((bp0 :: rest).map Prod.fst).getLastD 0))
    (stretchContour fs ((bp0 :: rest).map Prod.fst) ((bp0 :: rest).map Prod.snd)
      (List.replicate (bp0 :: rest).length 1) false
      (toSampN fs (((bp0 :: rest).map Prod.fst).getLastD 0))).1
    (stretchContour fs ((bp0 :: rest).map Prod.fst) ((bp0 :: rest).map Prod.snd)
      (List.replicate (bp0 :: rest).length 1) false
      (toSampN fs (((bp0 :: rest).map Prod.fst).getLastD 0))).2
    [1] [1] none fs 0, ?_, ?_⟩
  · simp only [sonify_f0, hdense, Bool.false_eq_true, if_false]
  · intro n hn
    rw [generate_tone_length] at hn
    have hlast :
        ((bp0 :: rest).map Prod.fst).getLastD 0 =
          ((bp0 :: rest).map Prod.fst).getD (((bp0 :: rest).map Prod.fst).length - 1) 0 :=
      getLastD_eq_getD _ 0 (by simp)
    have hdc : ∀ k, k < toSampN fs (((bp0 :: rest).map Prod.fst).getLastD 0) →
        (stretchContour fs ((bp0 :: rest).map Prod.fst) ((bp0 :: rest).map Prod.snd)
          (List.replicate (bp0 :: rest).length 1) false
          (toSampN fs (((bp0 :: rest).map Prod.fst).getLastD 0))).1 k = f ∧
        (stretchContour fs ((bp0 :: rest).map Prod.fst) ((bp0 :: rest).map Prod.snd)
          (List.replicate (bp0 :: rest).length 1) false
          (toSampN fs (((bp0 :: rest).map Prod.fst).getLastD 0))).2 k = 1 := by
      intro k hk
      obtain ⟨i, hi, hlo, hhi⟩ := stretch_cover fs ((bp0 :: rest).map Prod.fst) k
        (by
          show toSampN fs bp0.1 ≤ k
          rw [ht0]
          simp [toSampN, pyInt])
        (by rw [hlast] at hk; exact hk)
      have hseg := stretchContour_segment fs ((bp0 :: rest).map Prod.fst)
        ((bp0 :: rest).map Prod.snd) (List.replicate (bp0 :: rest).length 1) false
        (toSampN fs (((bp0 :: rest).map Prod.fst).getLastD 0)) i k
        (le_of_lt hfs) (by simp) (by simp)
        (fun b hb a hab => le_of_lt (pairwise_lt_getD _ hmono b hb a hab))
        hi hlo hhi hk
      constructor
      · rw [hseg.1]
        exact hconst i (by simp at hi ⊢; omega)
      · rw [hseg.2]
        rw [List.getD_eq_getElem (List.replicate (bp0 :: rest).length 1) 0
          (by simp at hi ⊢; omega)]
        simp
    rw [tone_single_sample _ _ _ fs n hn]
    rw [cycleSum_const _ f fs n (fun k hk => (hdc k (lt_of_le_of_lt hk hn)).1)]
    rw [(hdc n hn).2]
    rw [show ((((n : ℚ) + 1) * f / fs : ℚ) : ℝ) = ((n : ℝ) + 1) * (f : ℝ) / (fs : ℝ)
      from by push_cast; ring]
    rw [show (((1 : ℚ)) : ℝ) = 1 from by norm_num, mul_one]
    ring_nf

/-- C9, witness for the amended claim at the counterexample's constant
trajectory. -/
theorem claim_C9_one_sample_shift_witness :
    ∃ y, sonify_f0 [((0 : ℚ), 1), (1, 1)] none [1] [1] none none 0 false 4 = .ok y ∧
      ∀ n, n < y.length →
        y.getD n 0 = Real.sin (2 * Real.pi * ((1 : ℚ) : ℝ) * ((n : ℝ) + 1) / ((4 : ℚ) : ℝ)) :=
  claim_C9_one_sample_shift ((0 : ℚ), 1) [(1, 1)] 1 4 (by norm_num)
    (by norm_num [List.pairwise_cons]) rfl
    (by
      intro k hk
      simp only [List.length_cons, List.length_nil] at hk
      interval_cases k <;> rfl)

theorem hRead_append_lt (h : Heap) (xs : List ℚ) (a : ℕ) (ha : a < h.length) :
    hRead (h ++ [xs]) a = hRead h a := by
  unfold hRead
  rw [List.getD_eq_getElem?_getD, List.getD_eq_getElem?_getD,
    List.getElem?_append_left ha]

theorem hWriteRange_length (h : Heap) (a lo hi : ℕ) (v : ℚ) :
    (hWriteRange h a lo hi v).length = h.length := by
  simp [hWriteRange]

theorem hRead_hWriteRange_ne (h : Heap) (a lo hi : ℕ) (v : ℚ) (b : ℕ) (hab : b ≠ a) :
    hRead (hWriteRange h a lo hi v) b = hRead h b := by
  unfold hWriteRange hRead
  rw [List.getD_eq_getElem?_getD, List.getD_eq_getElem?_getD,
    List.getElem?_set_ne (Ne.symm hab)]
  rw [List.getD_eq_getElem?_getD]

theorem stretchStepHeap_length (fs : ℚ) (ts f0s gs : List ℚ) (shorter : Bool)
    (N aFS aGS i : ℕ) (h : Heap) :
    (stretchStepHeap fs ts f0s gs shorter N aFS aGS i h).length = h.length := by
  unfold stretchStepHeap
  split
  · split
    · rfl
    · simp [hWriteRange_length]
  · simp [hWriteRange_length]

theorem stretchStepHeap_read (fs : ℚ) (ts f0s gs : List ℚ) (shorter : Bool)
    (N aFS aGS i : ℕ) (h : Heap) (b : ℕ) (h1 : b ≠ aFS) (h2 : b ≠ aGS) :
    hRead (stretchStepHeap fs ts f0s gs shorter N aFS aGS i h) b = hRead h b := by
  unfold stretchStepHeap
  split
  · split
    · rfl
    · rw [hRead_hWriteRange_ne _ _ _ _ _ _ h2, hRead_hWriteRange_ne _ _ _ _ _ _ h1]
  · rw [hRead_hWriteRange_ne _ _ _ _ _ _ h2, hRead_hWriteRange_ne _ _ _ _ _ _ h1]

theorem iterStepsHeap_read (fs : ℚ) (ts f0s gs : List ℚ) (shorter : Bool)
    (N aFS aGS : ℕ) (b : ℕ) (h1 : b ≠ aFS) (h2 : b ≠ aGS) :
    ∀ (K : ℕ) (h : Heap),
      hRead (iterSteps (stretchStepHeap fs ts f0s gs shorter N aFS aGS) K h) b =
        hRead h b := by
  intro K
  induction K with
  | zero => intro h; rfl
  | succ k ih =>
    intro h
    show hRead (stretchStepHeap fs ts f0s gs shorter N aFS aGS k
      (iterSteps (stretchStepHeap fs ts f0s gs shorter N aFS aGS) k h)) b = hRead h b
    rw [stretchStepHeap_read fs ts f0s gs shorter N aFS aGS k _ b h1 h2]
    exact ih h

theorem iterStepsHeap_length (fs : ℚ) (ts f0s gs : List ℚ) (shorter : Bool)
    (N aFS aGS : ℕ) :
    ∀ (K : ℕ) (h : Heap),
      (iterSteps (stretchStepHeap fs ts f0s gs shorter N aFS aGS) K h).length =
        h.length := by
  intro K
  induction K with
  | zero => intro h; rfl
  | succ k ih =>
    intro h
    show (stretchStepHeap fs ts f0s gs shorter N aFS aGS k
      (iterSteps (stretchStepHeap fs ts f0s gs shorter N aFS aGS) k h)).length = h.length
    rw [stretchStepHeap_length, ih h]

/-- Reads below the caller's heap frontier survive the whole stretch stage:
the two zero buffers are allocated past the frontier, the loop writes only to
them, and the final output buffer is another fresh allocation. -/
theorem heap_tail_reads (h0 pre : Heap) (fs : ℚ) (tsVal f0Val gVal : List ℚ)
    (shorter : Bool) (n K aFS aGS : ℕ) (z1 z2 z3 : List ℚ)
    (hFS : h0.length ≤ aFS) (hGS : h0.length ≤ aGS)
    (hlen : h0.length ≤ pre.length)
    (hpre : ∀ a, a < h0.length → hRead pre a = hRead h0 a)
    (a : ℕ) (ha : a < h0.length) :
    hRead ((iterSteps (stretchStepHeap fs tsVal f0Val gVal shorter n aFS aGS) K
        ((pre ++ [z1]) ++ [z2])) ++ [z3]) a = hRead h0 a := by
  have hlen2 : ((pre ++ [z1]) ++ [z2]).length = pre.length + 2 := by simp
  rw [hRead_append_lt _ _ _ (by
    rw [iterStepsHeap_length, hlen2]
    omega)]
  rw [iterStepsHeap_read fs tsVal f0Val gVal shorter n aFS aGS a
    (by omega) (by omega)]
  rw [hRead_append_lt _ _ _ (by simp; omega), hRead_append_lt _ _ _ (by omega)]
  exact hpre a ha

/-- C10: when `sonify_f0` returns a waveform, every caller-supplied input
array is left unchanged: the heap model writes only into the freshly
allocated stretched buffers (and allocates fresh arrays for the
append/filter/ones results), so every address that existed before the call
still holds its original contents afterwards. -/
theorem hRead_append_list (h0 : Heap) (l : List (List ℚ)) (b : ℕ) (hb : b < h0.length) :
    hRead (h0 ++ l) b = hRead h0 b := by
  unfold hRead
  rw [List.getD_eq_getElem?_getD, List.getD_eq_getElem?_getD,
    List.getElem?_append_left hb]

theorem claim_C10_inputs_unchanged (h0 : Heap) (aTime aF0 : ℕ) (aGains : Option ℕ)
    (aP aA : ℕ) (aO : Option ℕ) (dur : Option ℕ) (fs : ℚ) (h1 : Heap) (out : ℕ)
    (hok : sonify_f0_heap h0 aTime aF0 aGains aP aA aO dur fs = .ok (h1, out)) :
    ∀ a, a < h0.length → hRead h1 a = hRead h0 a := by
  intro a ha
  unfold sonify_f0_heap at hok
  simp only [hAlloc] at hok
  split at hok
  · exact absurd hok (by simp)
  · rename_i hp gv heq
    have hg1 : (∀ b, b < h0.length → hRead hp b = hRead h0 b) ∧
        h0.length ≤ hp.length := by
      cases aGains with
      | some ag =>
        by_cases hc : (hRead h0 ag).length = (hRead h0 aTime).length
        · simp only [hc, if_true, Except.ok.injEq, Prod.mk.injEq] at heq
          rw [← heq.1]
          exact ⟨fun b _ => rfl, le_refl _⟩
        · simp [hc] at heq
      | none =>
        simp only [Except.ok.injEq, Prod.mk.injEq] at heq
        rw [← heq.1]
        refine ⟨fun b hb => hRead_append_list h0 _ b hb, by simp⟩
    split at hok
    · exact absurd hok (by simp)
    · rename_i tLast heq2
      split at hok
      all_goals
        simp only [Except.ok.injEq, Prod.mk.injEq] at hok
      case _ =>
        rw [← hok.1]
        refine heap_tail_reads h0 _ fs _ _ _ _ _ _ _ _ _ _ _ ?_ ?_ ?_
          (fun b hb => ?_) a ha
        · (try simp only [List.length_append, List.length_cons, List.length_nil]); omega
        · (try simp only [List.length_append, List.length_cons, List.length_nil]); omega
        · (try simp only [List.length_append, List.length_cons, List.length_nil]); omega
        · exact hg1.1 b hb
      case _ d hd =>
        split at hok
        · simp only [Except.ok.injEq, Prod.mk.injEq] at hok
          rw [← hok.1]
          refine heap_tail_reads h0 _ fs _ _ _ _ _ _ _ _ _ _ _ ?_ ?_ ?_
            (fun b hb => ?_) a ha
          · (try simp only [List.length_append, List.length_cons, List.length_nil]); omega
          · (try simp only [List.length_append, List.length_cons, List.length_nil]); omega
          · (try simp only [List.length_append, List.length_cons, List.length_nil]); omega
          · exact hg1.1 b hb
        · split at hok
          · simp only [Except.ok.injEq, Prod.mk.injEq] at hok
            rw [← hok.1]
            refine heap_tail_reads h0 _ fs _ _ _ _ _ _ _ _ _ _ _ ?_ ?_ ?_
              (fun b hb => ?_) a ha
            · (try simp only [List.length_append, List.length_cons, List.length_nil]); omega
            · (try simp only [List.length_append, List.length_cons, List.length_nil]); omega
            · (try simp only [List.length_append, List.length_cons, List.length_nil]); omega
            · rw [hRead_append_list hp _ b (by omega)]
              exact hg1.1 b hb
          · simp only [Except.ok.injEq, Prod.mk.injEq] at hok
            rw [← hok.1]
            refine heap_tail_reads h0 _ fs _ _ _ _ _ _ _ _ _ _ _ ?_ ?_ ?_
              (fun b hb => ?_) a ha
            · (try simp only [List.length_append, List.length_cons, List.length_nil]); omega
            · (try simp only [List.length_append, List.length_cons, List.length_nil]); omega
            · (try simp only [List.length_append, List.length_cons, List.length_nil]); omega
            · rw [List.append_assoc, hRead_append_list hp _ b (by omega)]
              exact hg1.1 b hb

/-- C10, witness: a concrete call (time column at address 0, f0 column at
address 1, partials and amplitudes at 2 and 3) succeeds and leaves all four
input arrays intact. -/
theorem claim_C10_inputs_unchanged_witness :
    ∃ pr : Heap × ℕ,
      sonify_f0_heap [[(0 : ℚ)], [440], [1], [1]] 0 1 none 2 3 none none 4 = .ok pr ∧
      ∀ a, a < 4 → hRead pr.1 a = hRead [[(0 : ℚ)], [440], [1], [1]] a := by
  have hres : sonify_f0_heap [[(0 : ℚ)], [440], [1], [1]] 0 1 none 2 3 none none 4 =
      .ok ([[(0 : ℚ)], [440], [1], [1], [1], [], [], []], 7) := by
    norm_num [sonify_f0_heap, hAlloc, hRead, hWriteRange, listSetRange, stretchStepHeap,
      iterSteps, toSampN, pyInt, Int.toNat, List.getLast?, List.replicate, List.set,
      List.enum, List.enumFrom]
  refine ⟨_, hres, ?_⟩
  intro a ha
  exact claim_C10_inputs_unchanged [[(0 : ℚ)], [440], [1], [1]] 0 1 none 2 3 none none 4
    _ _ hres a (by simpa using ha)
